import Mathlib

/-!
Verification of the process supervisor of `manager.go` (package main of the
multi-process-docker repository): the line-prefixing output sink
(`prefixedWriter`), the startup sequence (`Start` / `startProcess`), the
per-process monitor loop, and the coordinated shutdown (`Shutdown`).

Machine integers do not occur on the verified paths; byte values are
modelled as `Nat` (a newline is byte 10), durations as milliseconds in
`Nat`.  Concurrency is modelled cooperatively: the monitor goroutine of one
process is a loop that consults an environment oracle at each of its
suspension points (cancellation checks, start attempts, process exits,
delay selects) and produces a trace of the observable events, and the
sequential bodies of `Start` and `Shutdown` are functions producing traces
of their own steps.
-/

namespace ProcSup

/-- A byte of a stream, as Go treats one element of a byte slice. -/
abbrev Byte := Nat

/-- State of one `prefixedWriter` together with its destination stream:
`buffer` is the retained not-yet-terminated data (field `buffer` in
`manager.go`), `destIdx` counts the `dest.Write` calls made so far (so an
oracle can decide which of them fail), and `destOut` collects the byte
strings successfully written to the destination, in order. -/
structure PWState where
  buffer : List Byte
  destIdx : Nat
  destOut : List (List Byte)

/-- Index of the first newline byte of a buffer, as the scan at
`manager.go` lines 237-243 computes `lineEnd` (`-1` becomes `none`). -/
def findNL : List Byte → Option Nat
  | [] => none
  | b :: rest => if b = 10 then some 0 else (findNL rest).map (fun i => i + 1)

/-- The line-draining loop of `prefixedWriter.Write` (`manager.go` lines
236-262).  `oracle k` tells whether the `k`-th destination write succeeds.
On success the prefixed line is forwarded and the buffer shrinks past the
newline; on failure `Write` returns early with the original length and a
nil error, leaving the buffer untouched (lines 254-258).  `fuel` bounds the
iterations; every successful iteration consumes at least one buffered
byte, so fuel equal to the buffer length always suffices. -/
def pwDrainR (pfx : List Byte) (oracle : Nat → Bool) (originalLen : Nat) :
    Nat → PWState → PWState × Option (Nat × Option String)
  | 0, st => (st, none)
  | fuel + 1, st =>
    match findNL st.buffer with
    | none => (st, none)
    | some i =>
      if oracle st.destIdx then
        pwDrainR pfx oracle originalLen fuel
          ⟨st.buffer.drop (i + 1), st.destIdx + 1,
            st.destOut ++ [pfx ++ st.buffer.take (i + 1)]⟩
      else
        (⟨st.buffer, st.destIdx + 1, st.destOut⟩, some (originalLen, none))

/-- `prefixedWriter.Write` (`manager.go` lines 227-266): append the chunk to
the buffer, then drain complete lines.  Both return sites of the Go code
yield `(originalLen, nil)`. -/
def pwWrite (pfx : List Byte) (oracle : Nat → Bool) (st : PWState) (p : List Byte) :
    PWState × Nat × Option String :=
  match pwDrainR pfx oracle p.length (st.buffer ++ p).length
      ⟨st.buffer ++ p, st.destIdx, st.destOut⟩ with
  | (st2, some r) => (st2, r)
  | (st2, none) => (st2, p.length, none)

/-- Successive `Write` calls, one per chunk. -/
def pwRun (pfx : List Byte) (oracle : Nat → Bool) (st : PWState) :
    List (List Byte) → PWState
  | [] => st
  | c :: cs => pwRun pfx oracle (pwWrite pfx oracle st c).1 cs

/-- The destination oracle under which every destination write succeeds. -/
def allOk : Nat → Bool := fun _ => true

/-- Destination oracle whose first write fails and all later ones succeed;
used for concrete dropped-line scenarios. -/
def failFirst : Nat → Bool := fun k => decide (k ≠ 0)

/-- Specification-side splitting of a byte sequence into its
newline-terminated lines (each including its final newline, in order) and
the unterminated tail after the last newline. -/
def splitLines : List Byte → List (List Byte) × List Byte
  | [] => ([], [])
  | b :: rest =>
    if b = 10 then ((10 :: []) :: (splitLines rest).1, (splitLines rest).2)
    else
      match splitLines rest with
      | ([], t) => ([], b :: t)
      | (l :: ls, t) => ((b :: l) :: ls, t)

/-- A managed process descriptor (`Process` in `manager.go` lines 16-24);
`RestartDelayMs` models the `time.Duration` field in milliseconds. -/
structure Process where
  Name : String
  Command : String
  Args : List String
  Critical : Bool
  RestartDelayMs : Nat

/-- The restart delay a monitor loop actually waits: a zero spec delay is
replaced by the 5-second default (`manager.go` lines 108-111 and 145-148). -/
def RDelay (proc : Process) : Nat :=
  if proc.RestartDelayMs = 0 then 5000 else proc.RestartDelayMs

/-- Environment oracle of one monitor goroutine, indexed by the loop
iteration: whether cancellation is observed at the top-of-loop select,
whether `cmd.Start()` succeeds, whether `cmd.Wait()` returns an error, and
whether cancellation wins each of the later selects of that iteration. -/
structure MonEnv where
  cancelledAtTop : Nat → Bool
  startOk : Nat → Bool
  exitErr : Nat → Bool
  cancelledAfterExit : Nat → Bool
  cancelledInFailDelay : Nat → Bool
  cancelledInRestartDelay : Nat → Bool

/-- Why a monitor loop returned. -/
inductive ExitReason where
  | shutdownTop
  | initialStartFail
  | shutdownInFailDelay
  | shutdownAfterExit
  | shutdownInRestartDelay
deriving DecidableEq

/-- Observable events of one monitor goroutine: cancellation checks, the
insertion and removal of the handle in the `running` map, start attempts,
process exits, delay sleeps (in milliseconds), and the loop returning. -/
inductive TraceEv where
  | checkCancel (cancelled : Bool)
  | mapInsert
  | startAttempt (ok : Bool)
  | procExit (errored : Bool)
  | mapDelete
  | sleep (ms : Nat)
  | loopExit (r : ExitReason)
deriving DecidableEq

/-- One iteration of the monitor loop spawned by `startProcess`
(`manager.go` lines 74-159), as the list of its observable events plus
whether the loop proceeds to the next iteration.  The handle is stored in
the `running` map before `cmd.Start()` is attempted (lines 92-96) and
deleted on a failed start (lines 99-101) or after the process exits (lines
126-128).  The `initial` flag is the argument of `startProcess`, captured
once by the goroutine; it is consulted on every start failure (line 103),
not only on the first attempt of the loop. -/
def monIter (proc : Process) (env : MonEnv) (initial : Bool) (k : Nat) :
    List TraceEv × Bool :=
  if env.cancelledAtTop k then
    ([TraceEv.checkCancel true, TraceEv.loopExit ExitReason.shutdownTop], false)
  else if env.startOk k then
    if env.cancelledAfterExit k then
      ([TraceEv.checkCancel false, TraceEv.mapInsert, TraceEv.startAttempt true,
        TraceEv.procExit (env.exitErr k), TraceEv.mapDelete,
        TraceEv.checkCancel true, TraceEv.loopExit ExitReason.shutdownAfterExit], false)
    else if env.cancelledInRestartDelay k then
      ([TraceEv.checkCancel false, TraceEv.mapInsert, TraceEv.startAttempt true,
        TraceEv.procExit (env.exitErr k), TraceEv.mapDelete,
        TraceEv.checkCancel true, TraceEv.loopExit ExitReason.shutdownInRestartDelay], false)
    else
      ([TraceEv.checkCancel false, TraceEv.mapInsert, TraceEv.startAttempt true,
        TraceEv.procExit (env.exitErr k), TraceEv.mapDelete,
        TraceEv.sleep (RDelay proc)], true)
  else
    if initial then
      ([TraceEv.checkCancel false, TraceEv.mapInsert, TraceEv.startAttempt false,
        TraceEv.mapDelete, TraceEv.loopExit ExitReason.initialStartFail], false)
    else if env.cancelledInFailDelay k then
      ([TraceEv.checkCancel false, TraceEv.mapInsert, TraceEv.startAttempt false,
        TraceEv.mapDelete, TraceEv.checkCancel true,
        TraceEv.loopExit ExitReason.shutdownInFailDelay], false)
    else
      ([TraceEv.checkCancel false, TraceEv.mapInsert, TraceEv.startAttempt false,
        TraceEv.mapDelete, TraceEv.sleep (RDelay proc)], true)

/-- The monitor loop: iterate `monIter` from iteration `k` while it
continues, bounded by `fuel` iterations. -/
def monRun (proc : Process) (env : MonEnv) (initial : Bool) :
    Nat → Nat → List TraceEv
  | 0, _ => []
  | fuel + 1, k =>
    (monIter proc env initial k).1
      ++ (if (monIter proc env initial k).2
          then monRun proc env initial fuel (k + 1) else [])

/-- The trace of one monitor goroutine from its first iteration. -/
def monTrace (proc : Process) (env : MonEnv) (initial : Bool) (fuel : Nat) :
    List TraceEv :=
  monRun proc env initial fuel 0

/-- Steps of `Start` observable to its caller. -/
inductive StartEv where
  | launchMonitor (name : String)
  | sleepMs (ms : Nat)
deriving DecidableEq

/-- The caller-side behaviour of `startProcess` (`manager.go` lines
71-167): spawn the monitor goroutine, sleep 500 ms when `initial`, and
return `nil` — the function has no other return site on the caller's path,
so it can never report a launch failure to `Start`. -/
def startProcessCaller (proc : Process) (initial : Bool) :
    List StartEv × Option String :=
  (StartEv.launchMonitor proc.Name :: (if initial then [StartEv.sleepMs 500] else []),
    none)

/-- The loop of `Start` (`manager.go` lines 48-68): start each process in
order, return an error for a critical spec whose `startProcess` call
errors (dead in practice), and sleep one extra second after a critical
spec. -/
def startLoop : List Process → List StartEv × Option String
  | [] => ([], none)
  | proc :: rest =>
    if (startProcessCaller proc true).2.isSome && proc.Critical then
      ((startProcessCaller proc true).1,
        some ("failed to start critical process " ++ proc.Name))
    else
      ((startProcessCaller proc true).1
          ++ (if proc.Critical then [StartEv.sleepMs 1000] else [])
          ++ (startLoop rest).1,
        (startLoop rest).2)

/-- The caller-side events `Start` produces for one spec: launch the
monitor, sleep 500 ms (the unconditional initial-start sleep of
`startProcess`), and a further 1 s only for a critical spec. -/
def startBlock (proc : Process) : List StartEv :=
  StartEv.launchMonitor proc.Name :: StartEv.sleepMs 500
    :: (if proc.Critical then [StartEv.sleepMs 1000] else [])

/-- An entry of the `running` map as `Shutdown` sees it: its key and
whether its `cmd.Process` is non-nil (it is nil until `cmd.Start()` has
succeeded). -/
structure Handle where
  name : String
  hasProc : Bool
deriving DecidableEq

/-- Steps of `Shutdown`. -/
inductive ShutdownEv where
  | cancelCtx
  | sigterm (name : String)
  | waitLoops (graceful : Bool)
  | kill (name : String)
deriving DecidableEq

/-- `Shutdown` (`manager.go` lines 170-213): cancel the shared context,
send SIGTERM under the lock to every map entry whose `Process` is non-nil
(line 179), wait for the monitor loops with a 30-second timeout, and on
timeout force-kill every entry still in the map whose `Process` is
non-nil (line 204).  `running` is the map content at the call, `graceful`
tells whether all loops finish within the timeout, and `remaining` is the
map content when the timeout fires. -/
def shutdownTrace (running : List Handle) (graceful : Bool)
    (remaining : List Handle) : List ShutdownEv :=
  [ShutdownEv.cancelCtx]
    ++ (running.filter (fun h => h.hasProc)).map (fun h => ShutdownEv.sigterm h.name)
    ++ [ShutdownEv.waitLoops graceful]
    ++ (if graceful then []
        else (remaining.filter (fun h => h.hasProc)).map
          (fun h => ShutdownEv.kill h.name))

/-- Run a state machine over a monitor trace; `none` marks a violation of
the property the machine checks. -/
def scanEvents {σ : Type} (step : σ → TraceEv → Option σ) :
    σ → List TraceEv → Option σ
  | s, [] => some s
  | s, e :: rest =>
    match step s e with
    | none => none
    | some s2 => scanEvents step s2 rest

/-- State machine checking that after every process exit, no start attempt
happens before a sleep of exactly `d` milliseconds: the state records
whether an exit is awaiting its delay. -/
def gapStep (d : Nat) (w : Bool) (e : TraceEv) : Option Bool :=
  match e with
  | TraceEv.procExit _ => some true
  | TraceEv.sleep m => some (w && !(decide (m = d)))
  | TraceEv.startAttempt _ => if w then none else some false
  | _ => some w

/-- State machine checking that no start attempt happens after an observed
cancellation: the state records whether cancellation has been observed. -/
def cancelStep (s : Bool) (e : TraceEv) : Option Bool :=
  match e with
  | TraceEv.checkCancel true => some true
  | TraceEv.startAttempt _ => if s then none else some s
  | _ => some s

/-- What the next event must be after `e` for the handle-map discipline:
`1` demands a start attempt (right after a map insert), `2` demands a map
delete (right after a failed start attempt or a process exit), `0` demands
nothing. -/
def adjReq : TraceEv → Nat
  | TraceEv.mapInsert => 1
  | TraceEv.startAttempt false => 2
  | TraceEv.procExit _ => 2
  | _ => 0

/-- Whether event `e` satisfies requirement `s`. -/
def adjMatches : Nat → TraceEv → Bool
  | 0, _ => true
  | 1, TraceEv.startAttempt _ => true
  | 2, TraceEv.mapDelete => true
  | _, _ => false

/-- State machine for the handle-map discipline: every map insert is
immediately followed by a start attempt, and every failed start attempt or
process exit is immediately followed by a map delete. -/
def adjStep (s : Nat) (e : TraceEv) : Option Nat :=
  if adjMatches s e then some (adjReq e) else none

/-- Whether the handle is in the `running` map after the given trace
events. -/
def inMapAfter (t : List TraceEv) : Bool :=
  t.foldl (fun s e =>
    match e with
    | TraceEv.mapInsert => true
    | TraceEv.mapDelete => false
    | _ => s) false

/-- The critical spec `A` of the startup scenario (launch failing). -/
def procA : Process :=
  { Name := "a", Command := "/app/server", Args := [], Critical := true,
    RestartDelayMs := 0 }

/-- The non-critical spec `B` of the startup scenario. -/
def procB : Process :=
  { Name := "b", Command := "/app/client", Args := [], Critical := false,
    RestartDelayMs := 0 }

/-- A non-critical spec used for the restart-failure scenario. -/
def procC : Process :=
  { Name := "c", Command := "/app/worker", Args := [], Critical := false,
    RestartDelayMs := 0 }

/-- Monitor environment in which every start attempt fails and
cancellation never occurs. -/
def envFailAll : MonEnv :=
  { cancelledAtTop := fun _ => false
    startOk := fun _ => false
    exitErr := fun _ => false
    cancelledAfterExit := fun _ => false
    cancelledInFailDelay := fun _ => false
    cancelledInRestartDelay := fun _ => false }

/-- Monitor environment in which the first start succeeds, the process
exits with an error, and the restart attempt fails to start; cancellation
never occurs. -/
def envRestartFail : MonEnv :=
  { cancelledAtTop := fun _ => false
    startOk := fun k => decide (k = 0)
    exitErr := fun _ => true
    cancelledAfterExit := fun _ => false
    cancelledInFailDelay := fun _ => false
    cancelledInRestartDelay := fun _ => false }

theorem splitLines_cons_nl (rest : List Byte) :
    splitLines (10 :: rest) = ((10 :: []) :: (splitLines rest).1, (splitLines rest).2) := by
  simp [splitLines]

theorem splitLines_cons_empty (b : Byte) (rest t : List Byte) (hb : b ≠ 10)
    (h : splitLines rest = ([], t)) : splitLines (b :: rest) = ([], b :: t) := by
  simp [splitLines, hb, h]

theorem splitLines_cons_line (b : Byte) (rest l t : List Byte) (ls : List (List Byte))
    (hb : b ≠ 10) (h : splitLines rest = (l :: ls, t)) :
    splitLines (b :: rest) = ((b :: l) :: ls, t) := by
  simp [splitLines, hb, h]

theorem findNL_eq_none (xs : List Byte) : findNL xs = none ↔ 10 ∉ xs := by
  induction xs with
  | nil => simp [findNL]
  | cons b rest ih =>
    by_cases hb : b = 10
    · subst hb; simp [findNL]
    · simp [findNL, hb, ih, Ne.symm hb]

theorem findNL_lt (xs : List Byte) (i : Nat) (h : findNL xs = some i) :
    i < xs.length := by
  induction xs generalizing i with
  | nil => simp [findNL] at h
  | cons b rest ih =>
    simp only [findNL] at h
    split at h
    · injection h with h0
      subst h0
      simp
    · rcases Option.map_eq_some'.mp h with ⟨j, hj, hji⟩
      have := ih j hj
      subst hji
      simp only [List.length_cons]
      omega

theorem splitLines_of_none (xs : List Byte) (h : findNL xs = none) :
    splitLines xs = ([], xs) := by
  induction xs with
  | nil => simp [splitLines]
  | cons b rest ih =>
    simp only [findNL] at h
    split at h
    · exact absurd h (by simp)
    · rename_i hb
      exact splitLines_cons_empty b rest rest hb (ih (Option.map_eq_none'.mp h))

theorem splitLines_of_some (xs : List Byte) (i : Nat) (h : findNL xs = some i) :
    splitLines xs =
      (xs.take (i + 1) :: (splitLines (xs.drop (i + 1))).1,
        (splitLines (xs.drop (i + 1))).2) := by
  induction xs generalizing i with
  | nil => simp [findNL] at h
  | cons b rest ih =>
    simp only [findNL] at h
    split at h
    · rename_i hb
      injection h with h0
      subst h0
      subst hb
      simpa using splitLines_cons_nl rest
    · rename_i hb
      rcases Option.map_eq_some'.mp h with ⟨j, hj, hji⟩
      subst hji
      have hrec := ih j hj
      rw [List.take_succ_cons, List.drop_succ_cons]
      exact splitLines_cons_line b rest (rest.take (j + 1)) _ _ hb hrec

theorem splitLines_no_nl (xs : List Byte) (h : 10 ∉ xs) :
    splitLines xs = ([], xs) :=
  splitLines_of_none xs ((findNL_eq_none xs).mpr h)

theorem nl_not_mem_tail (xs : List Byte) : 10 ∉ (splitLines xs).2 := by
  induction xs with
  | nil => simp [splitLines]
  | cons b rest ih =>
    by_cases hb : b = 10
    · subst hb; simpa [splitLines_cons_nl] using ih
    · rcases hr : splitLines rest with ⟨ls, t⟩
      rcases ls with _ | ⟨l, ls⟩
      · rw [splitLines_cons_empty b rest t hb hr]
        intro hm
        rcases List.mem_cons.mp hm with h1 | h2
        · exact hb h1.symm
        · exact ih (by simpa [hr] using h2)
      · rw [splitLines_cons_line b rest l t ls hb hr]
        simpa [hr] using ih

theorem splitLines_flatten (xs : List Byte) :
    (splitLines xs).1.flatten ++ (splitLines xs).2 = xs := by
  induction xs with
  | nil => simp [splitLines]
  | cons b rest ih =>
    by_cases hb : b = 10
    · subst hb; simpa [splitLines_cons_nl] using ih
    · rcases hr : splitLines rest with ⟨ls, t⟩
      rcases ls with _ | ⟨l, ls⟩
      · rw [splitLines_cons_empty b rest t hb hr]
        simpa [hr] using ih
      · rw [splitLines_cons_line b rest l t ls hb hr]
        simp only [hr] at ih
        simpa [List.append_assoc] using congrArg (fun u => b :: u) ih

theorem splitLines_line_shape (xs : List Byte) :
    ∀ l ∈ (splitLines xs).1, ∃ m, l = m ++ [10] ∧ 10 ∉ m := by
  induction xs with
  | nil => simp [splitLines]
  | cons b rest ih =>
    by_cases hb : b = 10
    · subst hb
      intro l hl
      rw [splitLines_cons_nl] at hl
      rcases List.mem_cons.mp hl with h1 | h2
      · exact ⟨[], by simp [h1]⟩
      · exact ih l h2
    · rcases hr : splitLines rest with ⟨ls, t⟩
      rcases ls with _ | ⟨l0, ls⟩
      · intro l hl
        rw [splitLines_cons_empty b rest t hb hr] at hl
        simp at hl
      · intro l hl
        rw [splitLines_cons_line b rest l0 t ls hb hr] at hl
        rcases List.mem_cons.mp hl with h1 | h2
        · obtain ⟨m, hm, hmn⟩ := ih l0 (by simp [hr])
          refine ⟨b :: m, ?_, ?_⟩
          · simp [h1, hm]
          · intro hmem
            rcases List.mem_cons.mp hmem with h3 | h4
            · exact hb h3.symm
            · exact hmn h4
        · exact ih l (by simp [hr, h2])

theorem splitLines_append (xs ys : List Byte) :
    splitLines (xs ++ ys) =
      ((splitLines xs).1 ++ (splitLines ((splitLines xs).2 ++ ys)).1,
        (splitLines ((splitLines xs).2 ++ ys)).2) := by
  induction xs with
  | nil => simp [splitLines]
  | cons b rest ih =>
    by_cases hb : b = 10
    · subst hb
      rw [List.cons_append, splitLines_cons_nl, splitLines_cons_nl, ih]
      simp
    · rcases hr : splitLines rest with ⟨ls, t⟩
      rw [List.cons_append]
      rcases ls with _ | ⟨l0, ls⟩
      · rw [splitLines_cons_empty b rest t hb hr]
        have ih2 : splitLines (rest ++ ys) = splitLines (t ++ ys) := by
          rw [ih, hr]
          simp
        rcases hs : splitLines (t ++ ys) with ⟨ms, u⟩
        rw [hs] at ih2
        rcases ms with _ | ⟨m0, ms⟩
        · rw [splitLines_cons_empty b (rest ++ ys) u hb ih2, List.cons_append,
            splitLines_cons_empty b (t ++ ys) u hb hs]
          simp
        · rw [splitLines_cons_line b (rest ++ ys) m0 u ms hb ih2, List.cons_append,
            splitLines_cons_line b (t ++ ys) m0 u ms hb hs]
          simp
      · rw [splitLines_cons_line b rest l0 t ls hb hr]
        have ih2 : splitLines (rest ++ ys) =
            (l0 :: (ls ++ (splitLines (t ++ ys)).1), (splitLines (t ++ ys)).2) := by
          rw [ih, hr]
          simp
        rw [splitLines_cons_line b (rest ++ ys) l0 (splitLines (t ++ ys)).2
          (ls ++ (splitLines (t ++ ys)).1) hb ih2]
        simp

theorem flatten_nl_terminated (L : List (List Byte))
    (h : ∀ l ∈ L, ∃ m, l = m ++ [10]) :
    L.flatten = [] ∨ ∃ d, L.flatten = d ++ [10] := by
  induction L with
  | nil => left; rfl
  | cons l ls ih =>
    rcases ih (fun x hx => h x (List.mem_cons_of_mem l hx)) with h0 | ⟨d, hd⟩
    · obtain ⟨m, hm⟩ := h l (List.mem_cons_self l ls)
      right
      exact ⟨m, by rw [List.flatten_cons, h0, List.append_nil, hm]⟩
    · right
      exact ⟨l ++ d, by rw [List.flatten_cons, hd, List.append_assoc]⟩

theorem pwDrainR_allOk (pfx : List Byte) (n : Nat) :
    ∀ fuel st, st.buffer.length ≤ fuel →
      pwDrainR pfx allOk n fuel st =
        ({ buffer := (splitLines st.buffer).2,
           destIdx := st.destIdx + (splitLines st.buffer).1.length,
           destOut := st.destOut ++ (splitLines st.buffer).1.map (fun l => pfx ++ l) },
          none) := by
  intro fuel
  induction fuel with
  | zero =>
    rintro ⟨buf, idx, out⟩ hle
    have hb : buf = [] := List.length_eq_zero.mp (Nat.le_zero.mp hle)
    subst hb
    simp [pwDrainR, splitLines]
  | succ fuel ih =>
    rintro ⟨buf, idx, out⟩ hle
    rcases h : findNL buf with _ | i
    · have hs := splitLines_of_none buf h
      simp [pwDrainR, h, hs]
    · have hi := findNL_lt buf i h
      have hlen : (buf.drop (i + 1)).length ≤ fuel := by
        simp only [List.length_drop]
        simp only [List.length] at hle
        omega
      have hrec := ih ⟨buf.drop (i + 1), idx + 1, out ++ [pfx ++ buf.take (i + 1)]⟩ hlen
      have hsplit := splitLines_of_some buf i h
      simp only [pwDrainR, h, allOk, if_true]
      rw [hrec, hsplit]
      simp only [List.length_cons, List.map_cons]
      have e1 : idx + 1 + (splitLines (buf.drop (i + 1))).1.length
          = idx + ((splitLines (buf.drop (i + 1))).1.length + 1) := by omega
      have e2 : (out ++ [pfx ++ buf.take (i + 1)])
            ++ (splitLines (buf.drop (i + 1))).1.map (fun l => pfx ++ l)
          = out ++ ((pfx ++ buf.take (i + 1))
            :: (splitLines (buf.drop (i + 1))).1.map (fun l => pfx ++ l)) := by
        simp
      rw [e1, e2]

theorem pwWrite_allOk (pfx : List Byte) (st : PWState) (p : List Byte) :
    pwWrite pfx allOk st p =
      ({ buffer := (splitLines (st.buffer ++ p)).2,
         destIdx := st.destIdx + (splitLines (st.buffer ++ p)).1.length,
         destOut := st.destOut ++ (splitLines (st.buffer ++ p)).1.map (fun l => pfx ++ l) },
        p.length, none) := by
  have h := pwDrainR_allOk pfx p.length (st.buffer ++ p).length
    ⟨st.buffer ++ p, st.destIdx, st.destOut⟩ (le_refl _)
  unfold pwWrite
  rw [h]

theorem pwRun_allOk (pfx : List Byte) :
    ∀ (chunks : List (List Byte)) (st : PWState), 10 ∉ st.buffer →
      pwRun pfx allOk st chunks =
        { buffer := (splitLines (st.buffer ++ chunks.flatten)).2,
          destIdx := st.destIdx + (splitLines (st.buffer ++ chunks.flatten)).1.length,
          destOut := st.destOut
            ++ (splitLines (st.buffer ++ chunks.flatten)).1.map (fun l => pfx ++ l) } := by
  intro chunks
  induction chunks with
  | nil =>
    rintro ⟨buf, idx, out⟩ hst
    simp only [pwRun, List.flatten_nil, List.append_nil]
    rw [splitLines_no_nl buf hst]
    simp
  | cons c cs ih =>
    intro st hst
    simp only [pwRun, pwWrite_allOk]
    rw [ih _ (nl_not_mem_tail _)]
    have hap := splitLines_append (st.buffer ++ c) cs.flatten
    simp only [List.flatten_cons, ← List.append_assoc, hap]
    simp [List.length_append, List.map_append, List.append_assoc, Nat.add_assoc]

theorem pwDrainR_ret (pfx : List Byte) (oracle : Nat → Bool) (n : Nat) :
    ∀ fuel st, (pwDrainR pfx oracle n fuel st).2 = none
      ∨ (pwDrainR pfx oracle n fuel st).2 = some (n, none) := by
  intro fuel
  induction fuel with
  | zero => intro st; left; rfl
  | succ fuel ih =>
    intro st
    rcases h : findNL st.buffer with _ | i
    · left; simp [pwDrainR, h]
    · by_cases ho : oracle st.destIdx
      · simpa [pwDrainR, h, ho] using ih _
      · right; simp [pwDrainR, h, ho]

/-- Claim C8: for every input chunk `p`, `prefixedWriter.Write` returns
`(len(p), nil)` — the full input length and no error — in every case,
including when a destination write fails: both return sites of the Go code
(`manager.go` lines 257 and 265) yield `originalLen, nil`. -/
theorem write_reports_full_length (pfx : List Byte) (oracle : Nat → Bool)
    (st : PWState) (p : List Byte) :
    (pwWrite pfx oracle st p).2 = (p.length, none) := by
  have h := pwDrainR_ret pfx oracle p.length (st.buffer ++ p).length
    ⟨st.buffer ++ p, st.destIdx, st.destOut⟩
  unfold pwWrite
  rcases h2 : pwDrainR pfx oracle p.length (st.buffer ++ p).length
      ⟨st.buffer ++ p, st.destIdx, st.destOut⟩ with ⟨st2, r⟩
  rw [h2] at h
  dsimp only at h
  rcases h with h | h
  · subst h; rfl
  · subst h; rfl

/-- Claim C3: feeding a byte sequence to the line-prefixing sink in any
split into chunks (all destination writes succeeding) emits exactly the
same destination writes, in the same order, as feeding it in one chunk;
every destination write is the sink tag followed by one newline-terminated
line (its only newline at its end), and unterminated trailing bytes are
never written. -/
theorem chunking_invariance (pfx : List Byte) (chunks : List (List Byte)) :
    (pwRun pfx allOk ⟨[], 0, []⟩ chunks).destOut
        = (pwRun pfx allOk ⟨[], 0, []⟩ [chunks.flatten]).destOut
      ∧ (pwRun pfx allOk ⟨[], 0, []⟩ chunks).destOut
        = (splitLines chunks.flatten).1.map (fun l => pfx ++ l)
      ∧ ∀ w ∈ (pwRun pfx allOk ⟨[], 0, []⟩ chunks).destOut,
          ∃ line m, w = pfx ++ line ∧ line = m ++ [10] ∧ 10 ∉ m := by
  have h1 := pwRun_allOk pfx chunks ⟨[], 0, []⟩ (by simp)
  have h2 := pwRun_allOk pfx [chunks.flatten] ⟨[], 0, []⟩ (by simp)
  refine ⟨?_, ?_, ?_⟩
  · rw [h1, h2]; simp
  · rw [h1]; simp
  · rw [h1]
    intro w hw
    simp only [List.nil_append, List.mem_map] at hw
    obtain ⟨l, hl, rfl⟩ := hw
    obtain ⟨m, hm, hmn⟩ := splitLines_line_shape _ l hl
    exact ⟨l, m, rfl, hm, hmn⟩

/-- Claim C10: after any sequence of `Write` calls in which every
destination write succeeds, the retained buffer holds no newline byte and
is exactly the unterminated suffix of everything written so far: the data
splits as a (possibly empty) newline-terminated part followed by the
buffer. -/
theorem buffer_is_unterminated_suffix (pfx : List Byte) (chunks : List (List Byte)) :
    10 ∉ (pwRun pfx allOk ⟨[], 0, []⟩ chunks).buffer
      ∧ ∃ done, chunks.flatten = done ++ (pwRun pfx allOk ⟨[], 0, []⟩ chunks).buffer
          ∧ (done = [] ∨ ∃ d, done = d ++ [10]) := by
  have h1 := pwRun_allOk pfx chunks ⟨[], 0, []⟩ (by simp)
  rw [h1]
  refine ⟨by simpa using nl_not_mem_tail chunks.flatten,
    ⟨(splitLines chunks.flatten).1.flatten, ?_, ?_⟩⟩
  · simpa using (splitLines_flatten chunks.flatten).symm
  · exact flatten_nl_terminated _ (fun l hl => by
      obtain ⟨m, hm, _⟩ := splitLines_line_shape chunks.flatten l hl
      exact ⟨m, hm⟩)

/-- Claim C9 counterexample: with the first destination write failing and
later ones succeeding, the line `"a\n"` is not emitted by its own `Write`
call (the destination output is empty after it), yet a later `Write` call
emits it — the Go code returns early on a failed destination write without
removing the line from the buffer (`manager.go` lines 254-258), so the
line is retried, not dropped. -/
theorem failed_line_emitted_by_later_write :
    ((pwWrite [] failFirst ⟨[], 0, []⟩ [97, 10]).1).destOut = []
      ∧ [97, 10] ∈
          ((pwWrite [] failFirst
            (pwWrite [] failFirst ⟨[], 0, []⟩ [97, 10]).1 [98, 10]).1).destOut := by
  decide

/-- Claim C9 amended: when the destination write for a complete line fails,
`Write` still returns the full length and no error, but the line is
retained (buffer and destination output are unchanged) and is re-attempted
by the next `Write` call: once destination writes succeed again, the
previously failed line is emitted first. -/
theorem failed_line_retained (pfx : List Byte) (oracle : Nat → Bool) (st : PWState)
    (p : List Byte) (i : Nat) (hfail : oracle st.destIdx = false)
    (hnl : findNL (st.buffer ++ p) = some i) :
    (pwWrite pfx oracle st p).1 = ⟨st.buffer ++ p, st.destIdx + 1, st.destOut⟩
      ∧ (pwWrite pfx oracle st p).2 = (p.length, none)
      ∧ ((pwWrite pfx allOk (pwWrite pfx oracle st p).1 []).1).destOut
          = st.destOut ++ (splitLines (st.buffer ++ p)).1.map (fun l => pfx ++ l)
      ∧ (splitLines (st.buffer ++ p)).1.head? = some ((st.buffer ++ p).take (i + 1)) := by
  have hne : st.buffer ++ p ≠ [] := by
    intro h0
    rw [h0] at hnl
    simp [findNL] at hnl
  have hw : pwWrite pfx oracle st p
      = (⟨st.buffer ++ p, st.destIdx + 1, st.destOut⟩, p.length, none) := by
    unfold pwWrite
    rcases hfuel : (st.buffer ++ p).length with _ | m
    · exact absurd (List.length_eq_zero.mp hfuel) hne
    · simp [pwDrainR, hnl, hfail]
  have hsp := splitLines_of_some (st.buffer ++ p) i hnl
  refine ⟨by rw [hw], by rw [hw], ?_, by simp [hsp]⟩
  rw [hw]
  simp only [pwWrite_allOk, List.append_nil]

/-- Witness of the amended retained-line behaviour at a concrete input:
empty tag, first destination write failing, single chunk `"a\n"` — the
failing `Write` leaves the line in the buffer. -/
theorem failed_line_retained_witness :
    (pwWrite [] failFirst ⟨[], 0, []⟩ [97, 10]).1 = ⟨[97, 10], 1, []⟩ := by
  have h := failed_line_retained [] failFirst ⟨[], 0, []⟩ [97, 10] 1 (by decide) (by decide)
  simpa using h.1

theorem scanEvents_append {σ : Type} (step : σ → TraceEv → Option σ) (s : σ)
    (a b : List TraceEv) :
    scanEvents step s (a ++ b)
      = (scanEvents step s a).bind (fun s2 => scanEvents step s2 b) := by
  induction a generalizing s with
  | nil => simp [scanEvents]
  | cons e a ih =>
    rcases h : step s e with _ | s2
    · simp [scanEvents, List.cons_append, h]
    · simp [scanEvents, List.cons_append, h, ih]

/-- Claim C6 amended: in every monitor trace, the handle is inserted into
the `running` map immediately before the start attempt, and it is removed
immediately when the start attempt fails or when the process exits; so the
map holds the handle for a not-yet-started process exactly in the instant
between the insertion and the start attempt, and apart from that window a
mapped handle always belongs to a successfully started, still-running
process. -/
theorem handle_map_discipline (proc : Process) (env : MonEnv) (initial : Bool) :
    ∀ fuel k, scanEvents adjStep 0 (monRun proc env initial fuel k) = some 0 := by
  intro fuel
  induction fuel with
  | zero => intro k; rfl
  | succ fuel ih =>
    intro k
    cases hc : env.cancelledAtTop k with
    | true => simp [monRun, monIter, hc, scanEvents, adjStep, adjMatches, adjReq]
    | false =>
      cases hs : env.startOk k with
      | true =>
        cases he : env.cancelledAfterExit k with
        | true =>
          simp [monRun, monIter, hc, hs, he, scanEvents, adjStep, adjMatches, adjReq]
        | false =>
          cases hr : env.cancelledInRestartDelay k with
          | true =>
            simp [monRun, monIter, hc, hs, he, hr, scanEvents, adjStep, adjMatches, adjReq]
          | false =>
            simp [monRun, monIter, hc, hs, he, hr, scanEvents_append, scanEvents,
              adjStep, adjMatches, adjReq, ih]
      | false =>
        cases initial with
        | true => simp [monRun, monIter, hc, hs, scanEvents, adjStep, adjMatches, adjReq]
        | false =>
          cases hf : env.cancelledInFailDelay k with
          | true =>
            simp [monRun, monIter, hc, hs, hf, scanEvents, adjStep, adjMatches, adjReq]
          | false =>
            simp [monRun, monIter, hc, hs, hf, scanEvents_append, scanEvents,
              adjStep, adjMatches, adjReq, ih]

theorem gap_scan_run (proc : Process) (env : MonEnv) (initial : Bool) :
    ∀ fuel k,
      (scanEvents (gapStep (RDelay proc)) false (monRun proc env initial fuel k)).isSome
        = true := by
  intro fuel
  induction fuel with
  | zero => intro k; rfl
  | succ fuel ih =>
    intro k
    cases hc : env.cancelledAtTop k with
    | true => simp [monRun, monIter, hc, scanEvents, gapStep]
    | false =>
      cases hs : env.startOk k with
      | true =>
        cases he : env.cancelledAfterExit k with
        | true => simp [monRun, monIter, hc, hs, he, scanEvents, gapStep]
        | false =>
          cases hr : env.cancelledInRestartDelay k with
          | true => simp [monRun, monIter, hc, hs, he, hr, scanEvents, gapStep]
          | false =>
            simp [monRun, monIter, hc, hs, he, hr, scanEvents_append, scanEvents,
              gapStep, ih]
      | false =>
        cases initial with
        | true => simp [monRun, monIter, hc, hs, scanEvents, gapStep]
        | false =>
          cases hf : env.cancelledInFailDelay k with
          | true => simp [monRun, monIter, hc, hs, hf, scanEvents, gapStep]
          | false =>
            simp [monRun, monIter, hc, hs, hf, scanEvents_append, scanEvents,
              gapStep, ih]

theorem cancel_scan_run (proc : Process) (env : MonEnv) (initial : Bool) :
    ∀ fuel k,
      (scanEvents cancelStep false (monRun proc env initial fuel k)).isSome = true := by
  intro fuel
  induction fuel with
  | zero => intro k; rfl
  | succ fuel ih =>
    intro k
    cases hc : env.cancelledAtTop k with
    | true => simp [monRun, monIter, hc, scanEvents, cancelStep]
    | false =>
      cases hs : env.startOk k with
      | true =>
        cases he : env.cancelledAfterExit k with
        | true => simp [monRun, monIter, hc, hs, he, scanEvents, cancelStep]
        | false =>
          cases hr : env.cancelledInRestartDelay k with
          | true => simp [monRun, monIter, hc, hs, he, hr, scanEvents, cancelStep]
          | false =>
            simp [monRun, monIter, hc, hs, he, hr, scanEvents_append, scanEvents,
              cancelStep, ih]
      | false =>
        cases initial with
        | true => simp [monRun, monIter, hc, hs, scanEvents, cancelStep]
        | false =>
          cases hf : env.cancelledInFailDelay k with
          | true => simp [monRun, monIter, hc, hs, hf, scanEvents, cancelStep]
          | false =>
            simp [monRun, monIter, hc, hs, hf, scanEvents_append, scanEvents,
              cancelStep, ih]

/-- Claim C7: in every monitor trace, after a process exit no new start
attempt happens before a sleep of exactly the restart delay (first
conjunct: the delay-gap state machine never hits a violation); no start
attempt happens after an observed cancellation (second conjunct); and the
restart delay normalizes a zero spec delay to the 5-second default and is
always positive — never an instant restart. -/
theorem restart_delay_and_cancellation (proc : Process) (env : MonEnv)
    (initial : Bool) (fuel : Nat) :
    (scanEvents (gapStep (RDelay proc)) false (monTrace proc env initial fuel)).isSome
        = true
      ∧ (scanEvents cancelStep false (monTrace proc env initial fuel)).isSome = true
      ∧ RDelay proc = (if proc.RestartDelayMs = 0 then 5000 else proc.RestartDelayMs)
      ∧ 0 < RDelay proc := by
  refine ⟨gap_scan_run proc env initial fuel 0, cancel_scan_run proc env initial fuel 0,
    rfl, ?_⟩
  unfold RDelay
  split
  · omega
  · rename_i h
    omega

theorem startLoop_ok : ∀ procs : List Process, (startLoop procs).2 = none := by
  intro procs
  induction procs with
  | nil => rfl
  | cons p rest ih => simp [startLoop, startProcessCaller, ih]

/-- Claim C1 (code-bug evidence): `startProcess` launches the monitor
goroutine and always returns `nil`, so `Start` can never observe a launch
failure: for every spec list it returns success, and in the scenario of a
critical spec `a` whose launch fails followed by a non-critical spec `b`,
`Start` still returns `nil` and still launches `b` — while `a`'s monitor,
in an environment where its start fails, exits through the
initial-start-failure path.  The error branch of `Start` (`manager.go`
lines 53-57) and its message `failed to start critical process` are dead
code. -/
theorem start_error_path_dead :
    (∀ procs : List Process, (startLoop procs).2 = none)
      ∧ (startLoop [procA, procB]).2 = none
      ∧ StartEv.launchMonitor "b" ∈ (startLoop [procA, procB]).1
      ∧ monTrace procA envFailAll true 1
          = [TraceEv.checkCancel false, TraceEv.mapInsert, TraceEv.startAttempt false,
             TraceEv.mapDelete, TraceEv.loopExit ExitReason.initialStartFail] := by
  refine ⟨startLoop_ok, startLoop_ok _, ?_, ?_⟩
  · decide
  · decide

/-- Claim C2 (code-bug evidence): the `initial` flag of `startProcess` is
never cleared inside the monitor loop, so for a monitor launched by
`Start` (initial = true) a restart attempt that fails to start — here
after a first successful start, an errored exit and the 5-second delay —
makes the loop return through the initial-start-failure path instead of
scheduling another restart: the trace ends at the failed second attempt,
for every amount of remaining fuel. -/
theorem monitor_abandons_after_failed_restart :
    ∀ fuel : Nat,
      monRun procC envRestartFail true (fuel + 2) 0 =
        [TraceEv.checkCancel false, TraceEv.mapInsert, TraceEv.startAttempt true,
         TraceEv.procExit true, TraceEv.mapDelete, TraceEv.sleep 5000,
         TraceEv.checkCancel false, TraceEv.mapInsert, TraceEv.startAttempt false,
         TraceEv.mapDelete, TraceEv.loopExit ExitReason.initialStartFail] := by
  intro fuel
  simp [monRun, monIter, envRestartFail, procC, RDelay]

/-- Claim C5 counterexample: for the non-critical spec `b`, `Start` does
not proceed to the next spec without blocking — `startProcess` sleeps
500 ms after launching every initial monitor (`manager.go` lines
161-164), so the caller-side trace for `b` contains a sleep. -/
theorem start_waits_for_noncritical :
    procB.Critical = false
      ∧ (startLoop [procB]).1 = [StartEv.launchMonitor "b", StartEv.sleepMs 500]
      ∧ StartEv.sleepMs 500 ∈ (startLoop [procB]).1 := by
  refine ⟨rfl, ?_, ?_⟩ <;> decide

/-- Claim C5 amended: for each spec, `Start` launches the monitor and then
blocks 500 ms (the unconditional initial-start sleep of `startProcess`),
and only for a critical spec it blocks a further 1 second before moving to
the next spec. -/
theorem start_block_structure (procs : List Process) :
    (startLoop procs).1 = (procs.map startBlock).flatten := by
  induction procs with
  | nil => rfl
  | cons p rest ih => simp [startLoop, startProcessCaller, startBlock, ih]

/-- Claim C6 counterexample: right after the map insertion (two events
into the monitor trace) the handle is in the `running` map, although no
start attempt has succeeded — indeed in this environment no start attempt
ever succeeds: the handle is stored before `cmd.Start()` is called
(`manager.go` lines 92-96). -/
theorem handle_mapped_before_start :
    inMapAfter ((monTrace procB envFailAll true 1).take 2) = true
      ∧ TraceEv.startAttempt true ∉ monTrace procB envFailAll true 1 := by
  refine ⟨?_, ?_⟩ <;> decide

/-- Claim C4 counterexample: a handle present in the `running` map whose
`cmd.Process` is nil (inserted at `manager.go` line 93 before
`cmd.Start()` has succeeded) receives no SIGTERM from `Shutdown` — the
signal loop skips entries with a nil `Process` (line 179), so not every
handle currently in the running map is signalled. -/
theorem shutdown_skips_processless_handle :
    (⟨"x", false⟩ : Handle) ∈ ([⟨"x", false⟩] : List Handle)
      ∧ ShutdownEv.sigterm "x" ∉ shutdownTrace [⟨"x", false⟩] true [] := by
  refine ⟨?_, ?_⟩ <;> decide

/-- Claim C4 amended: `Shutdown` performs, strictly in order: (1) cancel
the shared context; (2) under the lock, send SIGTERM to every handle in
the running map whose process handle is non-nil (an entry whose start has
not yet produced a process is skipped); (3) wait for the monitor loops
with the 30-second bound; (4) only if the bound elapses, force-kill every
handle still in the map whose process is non-nil.  The function always
returns (it is a total function of its inputs), and every straggler with a
live process receives a kill. -/
theorem shutdown_sequence (running : List Handle) (graceful : Bool)
    (remaining : List Handle) :
    ∃ sig post,
      shutdownTrace running graceful remaining
          = [ShutdownEv.cancelCtx] ++ sig ++ [ShutdownEv.waitLoops graceful] ++ post
        ∧ (∀ e ∈ sig, ∃ n, e = ShutdownEv.sigterm n)
        ∧ (∀ h ∈ running, h.hasProc = true → ShutdownEv.sigterm h.name ∈ sig)
        ∧ (∀ e ∈ post, ∃ n, e = ShutdownEv.kill n)
        ∧ (graceful = true → post = [])
        ∧ (graceful = false → ∀ h ∈ remaining, h.hasProc = true →
            ShutdownEv.kill h.name ∈ post) := by
  refine ⟨(running.filter (fun (h : Handle) => h.hasProc)).map
      (fun (h : Handle) => ShutdownEv.sigterm h.name),
    (if graceful then []
      else (remaining.filter (fun (h : Handle) => h.hasProc)).map
        (fun (h : Handle) => ShutdownEv.kill h.name)),
    rfl, ?_, ?_, ?_, ?_, ?_⟩
  · intro e he
    obtain ⟨h, _, rfl⟩ := List.mem_map.mp he
    exact ⟨h.name, rfl⟩
  · intro h hh hp
    exact List.mem_map.mpr ⟨h, List.mem_filter.mpr ⟨hh, hp⟩, rfl⟩
  · intro e he
    split at he
    · simp at he
    · obtain ⟨h, _, rfl⟩ := List.mem_map.mp he
      exact ⟨h.name, rfl⟩
  · intro hg
    simp [hg]
  · intro hg h hh hp
    rw [hg]
    simp only [Bool.false_eq_true, if_false]
    exact List.mem_map.mpr ⟨h, List.mem_filter.mpr ⟨hh, hp⟩, rfl⟩

end ProcSup
